import Mathlib

/-!
Shallow embedding of the Dual_Core_Caleon_1.0 verdict-consensus core.

Each definition mirrors one Python function of the repository:
* `ISS_Brainstem.py`            — pulse oracle (cycle counter),
* `left_hemisphere/synaptic_resonator.py` — synapse bank, fan-pass pyramid,
* `left_hemisphere/gyro_harmonizer.py` and
  `right_hemisphere/gyro_harmonizer.py`  — hemisphere harmonizers,
* `Final_harmonizer.py` / `Thinker.py`   — final harmonizer with the
  Ollama escalation branch and meta-reflection,
* `Task_Orchestrator.py`        — pulse-stamped FIFO queue.

Modelling conventions: Python floats are embedded as rationals with exact
arithmetic; `random.uniform` draws become explicit parameters constrained
by an admissibility predicate; the unbounded `while True` retry loop of
`_pick_unique_seedset` becomes a fuel-indexed function whose `none` result
models divergence (no retry budget suffices); Python dict keys that are
present only on some code paths become `Option` fields; wall-clock
components of pulses and stardates are outside the model, only the
monotonic integer cycle component is kept.
-/

namespace DualCore

/-! ### ISS_Brainstem.py -/

/-- State of one `ISSBrainstem` instance: the `_cycle` counter
(`self._cycle = 0` in `__init__`).  Each Python instance owns its own
counter; the module also creates one shared instance `ISS`. -/
structure ISSBrainstem where
  cycle : Nat
deriving DecidableEq

/-- `ISSBrainstem.pulse`: under `self._lock`, increments `_cycle` and
formats `PULSE-<unix>.<cycle>`.  The wall-clock part is I/O; the model
returns the successor state together with the integer cycle component of
the issued PulseId. -/
def ISSBrainstem.pulse (s : ISSBrainstem) : ISSBrainstem × Nat :=
  (⟨s.cycle + 1⟩, s.cycle + 1)

/-- Cycle components of `n` successive `pulse()` calls on one instance. -/
def ISSBrainstem.pulseCycles (s : ISSBrainstem) : Nat → List Nat
  | 0 => []
  | n + 1 => (s.pulse).2 :: (s.pulse).1.pulseCycles n

/-- A process trace with two `ISSBrainstem` instances, as the code builds
them: the module-level singleton `ISS` (used e.g. for the resonator's
`cycle_id` pulses) and the fresh instance constructed by
`Thinker.__init__` (`self.iss = ISSBrainstem()`), whose counter also
starts at 0.  The trace pulses the singleton twice, then the Thinker
instance once, and lists the three issued cycle components in order. -/
def twoBrainstemTrace : List Nat :=
  let p1 := ISSBrainstem.pulse ⟨0⟩
  let p2 := ISSBrainstem.pulse p1.1
  let q1 := ISSBrainstem.pulse ⟨0⟩
  [p1.2, p2.2, q1.2]

/-! ### synaptic_resonator.py -/

/-- Effective content of one vault seed JSON as consumed by
`Synapse.__init__`: `bias = vault_seed.get("bias", 0.0)` and
`mod = vault_seed.get("mod", 0.02)`.  The model takes the resulting two
numbers directly. -/
structure Seed where
  bias : ℚ
  mod : ℚ
deriving DecidableEq

/-- One synapse: `self.mode`, `self.bias`, `self.mod` from
`Synapse.__init__(mode, vault_seed)`. -/
structure Synapse where
  mode : String
  bias : ℚ
  mod : ℚ
deriving DecidableEq

/-- `Synapse(mode, vault_seed)` construction. -/
def synapseOf (mode : String) (seed : Seed) : Synapse :=
  ⟨mode, seed.bias, seed.mod⟩

/-- `Synapse.fire(incoming)`.  The `random.uniform` draw made inside the
Python body is passed as the explicit parameter `u`:
intuition returns `incoming * (1.0 + bias + u)`, induction and deduction
return `incoming * (1.0 + u)` (their draws differ only in range), any
other mode returns `incoming` unchanged. -/
def Synapse.fire (s : Synapse) (u incoming : ℚ) : ℚ :=
  if s.mode = "intuition" then incoming * (1 + s.bias + u)
  else if s.mode = "induction" then incoming * (1 + u)
  else if s.mode = "deduction" then incoming * (1 + u)
  else incoming

/-- Range of the `random.uniform` draw of `Synapse.fire` per mode:
`uniform(-mod, mod)` for intuition, `uniform(-2*mod, 2*mod)` for
induction, `uniform(-mod, mod/2)` for deduction.  Modes outside the three
make no draw. -/
def Synapse.drawAdmissible (s : Synapse) (u : ℚ) : Prop :=
  if s.mode = "intuition" then -s.mod ≤ u ∧ u ≤ s.mod
  else if s.mode = "induction" then -(2 * s.mod) ≤ u ∧ u ≤ 2 * s.mod
  else if s.mode = "deduction" then -s.mod ≤ u ∧ u ≤ s.mod / 2
  else True

/-- Largest possible magnitude of the multiplicative perturbation of one
synapse: `bias + mod` for intuition, `2*mod` for induction, `mod` for
deduction (the deduction draw lies in `[-mod, mod/2] ⊆ [-mod, mod]`). -/
def pertBound (s : Synapse) : ℚ :=
  if s.mode = "intuition" then s.bias + s.mod
  else if s.mode = "induction" then 2 * s.mod
  else if s.mode = "deduction" then s.mod
  else 0

/-- Largest configured perturbation over the three per-mode seeds. -/
def maxPerturbation (sI sH sK : Seed) : ℚ :=
  max (sI.bias + sI.mod) (max (2 * sH.mod) sK.mod)

/-- `SynapticResonator._build_synapses`: 780 iterations, each appending an
intuition synapse (seed_spinoza), an induction synapse (seed_hume) and a
deduction synapse (seed_kant); `random.shuffle` afterwards is modelled by
quantifying over permutations of this list. -/
def buildSynapses (sI sH sK : Seed) : List Synapse :=
  (List.replicate 780
    [synapseOf "intuition" sI, synapseOf "induction" sH, synapseOf "deduction" sK]).flatten

/-- `PyramidNode.aggregate(values)`: `1.0` on an empty list, otherwise
`sum(values) / len(values)`. -/
def aggregate (values : List ℚ) : ℚ :=
  if values.isEmpty then 1 else values.sum / values.length

/-- Node outputs of `_fan_pass` (the Python dict keyed 6,5,4,3,2,1). -/
structure FanOut where
  out6 : ℚ
  out5 : ℚ
  out4 : ℚ
  out3 : ℚ
  out2 : ℚ
  out1 : ℚ
deriving DecidableEq

/-- `SynapticResonator._fan_pass(values)`: positional slices
`values[0:780]`, `values[780:1560]`, `values[1560:2340]` into nodes 6,5,4;
nodes 3 and 2 each aggregate `[out4, out5, out6]`; node 1 aggregates
`[out2, out3]`. -/
def fan_pass (values : List ℚ) : FanOut :=
  let o6 := aggregate (values.take 780)
  let o5 := aggregate ((values.drop 780).take 780)
  let o4 := aggregate ((values.drop 1560).take 780)
  let o3 := aggregate [o4, o5, o6]
  let o2 := aggregate [o4, o5, o6]
  let o1 := aggregate [o2, o3]
  ⟨o6, o5, o4, o3, o2, o1⟩

/-- `fired = [syn.fire(stimulus_value) for syn in self.synapses]`, with
the per-synapse uniform draws supplied as the list `draws` (the i-th
synapse consumes the i-th draw). -/
def fireAll (bank : List Synapse) (draws : List ℚ) (stimulus : ℚ) : List ℚ :=
  (bank.zip draws).map (fun p => p.1.fire p.2 stimulus)

/-- `SynapticResonator.resonate`: the `synaptic_verdict` is
`self._fan_pass(fired)[1]`.  The Ollama annotation and the reflection log
are side channels that do not feed back into the verdict. -/
def resonateVerdict (bank : List Synapse) (draws : List ℚ) (stimulus : ℚ) : ℚ :=
  (fan_pass (fireAll bank draws stimulus)).out1

/-! ### gyro_harmonizer.py (left and right) and Final_harmonizer.py -/

/-- A seed combo: `(philosopher, tuple(sorted(random.sample(logic_seeds, 5))))`.
The sorted five-element tuple is kept as a list of ids. -/
structure Combo where
  philosopher : String
  logicSet : List String
deriving DecidableEq

/-- The duck-typed `vault` collaborator: enumerable `philosophers` and
`logic_seeds`, plus `evaluate(input, philosopher, logic_set)` and
`is_resolved(verdict)`.  `I` is the type of the evaluated input
(`distilled` for the hemispheres, the fused record for the final core);
verdicts are strings. -/
structure Vault (I : Type) where
  philosophers : List String
  logic_seeds : List String
  evaluate : I → String → List String → String
  is_resolved : String → Bool

/-- Ghost trace of one evaluation cycle: the attempt number within the
run, the combo handed to `vault.evaluate`, the verdict it returned and
the value of `vault.is_resolved` on it. -/
structure CycleRecord where
  cycleIndex : Nat
  combo : Combo
  verdict : String
  resolved : Bool
deriving DecidableEq

/-- Mutable state of a harmonizer run: the index of the next random draw
to consume, `self.previous_sets`, and the ghost trace of the evaluate
calls made so far. -/
structure HarmonizeState where
  drawIdx : Nat
  prev : List Combo
  records : List CycleRecord
deriving DecidableEq

/-- Result dict of a harmonize call.  `cycles` is optional because the
final harmonizer's unresolved branch builds its dict without a
`"cycles"` key; `ollama_model` is present only on the escalated path. -/
structure HarmonizationResult where
  source : String
  verdict : String
  cycles : Option Nat
  status : String
  ollama_model : Option String
deriving DecidableEq

/-- `self.base_cycles = 5` (hemispheres) and `self.primary_cycles = 5`
(final core). -/
def base_cycles : Nat := 5

/-- `self.conflict_cycles = 5`. -/
def conflict_cycles : Nat := 5

/-- `_pick_unique_seedset` (identical in `HarmonizerLeft`,
`HarmonizerRight` and `FinalHarmonizer`): an unbounded `while True` loop
that draws a combo, retries while it is in `self.previous_sets`, and
otherwise appends it and returns it.  `draws i` is the combo produced by
the i-th `random.choice`/`random.sample` pair of the run; `fuel` bounds
the number of loop iterations inspected, and a `none` result means the
loop did not return within `fuel` iterations (for every `fuel`, on an
exhausted combo space — divergence).  On success it returns the combo,
the next draw index and the updated `previous_sets`. -/
def pickUniqueSeedset (draws : Nat → Combo) :
    Nat → Nat → List Combo → Option (Combo × Nat × List Combo)
  | 0, _, _ => none
  | fuel + 1, i, prev =>
    let combo := draws i
    if combo ∈ prev then pickUniqueSeedset draws fuel (i + 1) prev
    else some (combo, i + 1, prev ++ [combo])

/-- One `for` loop of `harmonize` (both the primary and the conflict loop
of the hemisphere harmonizers have this body, as does the primary loop of
the final harmonizer): pick a unique combo, evaluate, and return a
resolved result whose `cycles` is the overall attempt number (`cycle` in
the primary loop, `base_cycles + conflict` in the conflict loop — both
equal `off + 1` where `off` counts the attempts already made this run).
Outer `none`: a pick diverged.  Inner `none`: the loop finished all its
iterations without resolving. -/
def runCycles (I : Type) (vault : Vault I) (draws : Nat → Combo) (input : I)
    (source : String) (fuel : Nat) :
    Nat → Nat → HarmonizeState → Option (Option HarmonizationResult × HarmonizeState)
  | _, 0, st => some (none, st)
  | off, count + 1, st =>
    match pickUniqueSeedset draws fuel st.drawIdx st.prev with
    | none => none
    | some (combo, i', prev') =>
      let verdict := vault.evaluate input combo.philosopher combo.logicSet
      let res := vault.is_resolved verdict
      let st' : HarmonizeState :=
        ⟨i', prev', st.records ++ [⟨off + 1, combo, verdict, res⟩]⟩
      if res then
        some (some ⟨source, verdict, some (off + 1), "resolved", none⟩, st')
      else
        runCycles I vault draws input source fuel (off + 1) count st'

/-- `HarmonizerLeft.harmonize` / `HarmonizerRight.harmonize` on a fresh
instance (`previous_sets = []`): five primary cycles, five conflict
cycles, otherwise the `"UNRESOLVED"` dict with
`cycles = base_cycles + conflict_cycles`.  `source` is
`"Left_Hemisphere"` or `"Right_Hemisphere"`. -/
def hemisphereHarmonize (I : Type) (vault : Vault I) (draws : Nat → Combo)
    (input : I) (source : String) (fuel : Nat) :
    Option (HarmonizationResult × HarmonizeState) :=
  match runCycles I vault draws input source fuel 0 base_cycles ⟨0, [], []⟩ with
  | none => none
  | some (some r, st) => some (r, st)
  | some (none, st) =>
    match runCycles I vault draws input source fuel base_cycles conflict_cycles st with
    | none => none
    | some (some r, st') => some (r, st')
    | some (none, st') =>
      some (⟨source, "UNRESOLVED", some (base_cycles + conflict_cycles), "unresolved", none⟩, st')

/-- Specification-side description of the hemisphere result, written from
the spec's sentence for `harmonize`: the run returns at its first
resolved attempt with that attempt's verdict and index, and otherwise
returns the `"UNRESOLVED"` sentinel after all
`primaryCycles + conflictCycles` attempts.  Stated as a function of the
run's cycle trace, for the refinement theorem. -/
def specHemiOutcome (source : String) (records : List CycleRecord) : HarmonizationResult :=
  match records.getLast? with
  | some rec =>
    if rec.resolved then ⟨source, rec.verdict, some records.length, "resolved", none⟩
    else ⟨source, "UNRESOLVED", some (base_cycles + conflict_cycles), "unresolved", none⟩
  | none => ⟨source, "UNRESOLVED", some (base_cycles + conflict_cycles), "unresolved", none⟩

/-- The dict returned by `OllamaEngine.query`: `success`, `response` and
(on the 200 path) `model`.  A raised exception inside the `try` block of
the conflict loop is modelled by `none` at the call site. -/
structure OllamaResult where
  success : Bool
  response : String
  model : String
deriving DecidableEq

/-- The `OllamaEngine` collaborator as seen by the conflict loop of the
final harmonizer: the outcome of `health_check()` and of
`asyncio.run(self.ollama.query(...))` at conflict cycle `c` (`none`
models an exception escaping `query`, caught by the surrounding
`except`). -/
structure OllamaOracle where
  health : Nat → Bool
  query : Nat → Option OllamaResult

/-- `True` when the query outcome does not yield an enhanced verdict:
either an exception was raised or `result["success"]` is false. -/
def queryFailed : Option OllamaResult → Prop
  | none => True
  | some q => q.success = false

/-- The record returned by `Thinker.reflect`: the input under
`"original"`, the fixed reflection note and confidence `0.95`, and a
pulse from the Thinker's own `ISSBrainstem` (its cycle component is kept;
the stardate is wall clock and outside the model). -/
structure ReflectionRecord where
  original : HarmonizationResult
  reflection : String
  confidence : ℚ
  pulse : Nat
deriving DecidableEq

/-- `Thinker.reflect(merged_verdict)` with the Thinker's brainstem at
cycle `c`; returns the record and the advanced brainstem state. -/
def thinkerReflect (c : Nat) (v : HarmonizationResult) : ReflectionRecord × Nat :=
  (⟨v, "Meta-analysis applied", 95 / 100, c + 1⟩, c + 1)

/-- The fused record built at the top of `FinalHarmonizer.harmonize`. -/
structure Fused (D : Type) where
  left : String
  right : String
  distilled : D

/-- The conflict loop of `FinalHarmonizer.harmonize`: at conflict cycle
`c` it picks a unique combo and evaluates; if the local verdict is
unresolved and `health_check()` passes it queries Ollama, and on
`result["success"]` short-circuits with the `"resolved_ollama"` dict
(verdict = the Ollama response, `cycles = primary_cycles + conflict`,
`ollama_model` present); on a query exception or `success = false` it
falls through to the local `is_resolved` re-check of the same cycle
before moving on. -/
def finalConflict (D : Type) (vault : Vault (Fused D)) (draws : Nat → Combo)
    (oll : OllamaOracle) (fused : Fused D) (fuel : Nat) :
    Nat → Nat → HarmonizeState → Option (Option HarmonizationResult × HarmonizeState)
  | _, 0, st => some (none, st)
  | c, count + 1, st =>
    match pickUniqueSeedset draws fuel st.drawIdx st.prev with
    | none => none
    | some (combo, i', prev') =>
      let verdict := vault.evaluate fused combo.philosopher combo.logicSet
      let res := vault.is_resolved verdict
      let st' : HarmonizeState :=
        ⟨i', prev', st.records ++ [⟨base_cycles + c, combo, verdict, res⟩]⟩
      let escalated : Option HarmonizationResult :=
        if !res && oll.health c then
          match oll.query c with
          | some qr =>
            if qr.success then
              some ⟨"Final_Core_Ollama", qr.response, some (base_cycles + c),
                "resolved_ollama", some qr.model⟩
            else none
          | none => none
        else none
      match escalated with
      | some r => some (some r, st')
      | none =>
        if res then
          some (some ⟨"Final_Core", verdict, some (base_cycles + c), "resolved", none⟩, st')
        else
          finalConflict D vault draws oll fused fuel (c + 1) count st'

/-- `FinalHarmonizer.harmonize(left_verdict, right_verdict, distilled)`
on a fresh instance: fuse, run five primary cycles (same loop body as the
hemispheres, source `"Final_Core"`), then the Ollama-enhanced conflict
loop, otherwise the `"UNRESOLVED_RETURN_TO_RESONATOR"` dict — note this
dict carries no `"cycles"` key.  Every return value passes through
`self.thinker.reflect`; the Thinker's brainstem starts at cycle 0.
Returns the reflection record, the final run state and the Thinker's
brainstem cycle. -/
def finalHarmonize (D : Type) (vault : Vault (Fused D)) (draws : Nat → Combo)
    (oll : OllamaOracle) (leftV rightV : String) (distilled : D) (fuel : Nat) :
    Option (ReflectionRecord × HarmonizeState × Nat) :=
  let fused : Fused D := ⟨leftV, rightV, distilled⟩
  match runCycles (Fused D) vault draws fused "Final_Core" fuel 0 base_cycles ⟨0, [], []⟩ with
  | none => none
  | some (some r, st) =>
    let p := thinkerReflect 0 r
    some (p.1, st, p.2)
  | some (none, st) =>
    match finalConflict D vault draws oll fused fuel 1 conflict_cycles st with
    | none => none
    | some (some r, st') =>
      let p := thinkerReflect 0 r
      some (p.1, st', p.2)
    | some (none, st') =>
      let p := thinkerReflect 0
        ⟨"Final_Core", "UNRESOLVED_RETURN_TO_RESONATOR", none, "unresolved", none⟩
      some (p.1, st', p.2)

/-! ### Task_Orchestrator.py -/

/-- A task dict.  The pulse stamps hold the integer cycle component of
the PulseId written under `"queued_at"` / `"executed_at"` /
`"completed_at"`; `none` models an absent key. -/
structure TaskItem where
  payload : String
  queued_at : Option Nat
  executed_at : Option Nat
  completed_at : Option Nat
deriving DecidableEq

/-- State of a `TaskOrchestrator` instance: the cycle counter of its own
`ISSBrainstem` (`self.iss = ISSBrainstem()`) and the
`collections.deque` that `__init__` binds to the attribute name
`"queue"`. -/
structure TaskOrchestrator where
  issCycle : Nat
  queueAttr : List TaskItem
deriving DecidableEq

/-- The attribute names bound in the instance `__dict__` by
`TaskOrchestrator.__init__`: `self.iss` and `self.queue`. -/
def taskOrchestratorInstanceAttrs : List String := ["iss", "queue"]

/-- Python-level error raised by a call expression. -/
inductive PyError where
  | typeErrorNotCallable (typeName : String)
deriving DecidableEq

/-- The call `orchestrator.queue(item)`.  Python attribute lookup checks
the instance `__dict__` before the class body, and `__init__` bound the
name `"queue"` to a `collections.deque`, shadowing the method `queue`
defined in the class; calling a deque instance raises
`TypeError: 'collections.deque' object is not callable`.  The `else`
branch holds the (unreachable) method body: stamp the item with an
enqueue pulse, append it to the tail and return the pulse. -/
def TaskOrchestrator.callQueue (t : TaskOrchestrator) (item : TaskItem) :
    Except PyError (TaskOrchestrator × Nat) :=
  if "queue" ∈ taskOrchestratorInstanceAttrs then
    Except.error (PyError.typeErrorNotCallable "collections.deque")
  else
    let c := t.issCycle + 1
    let item' : TaskItem := ⟨item.payload, some c, item.executed_at, item.completed_at⟩
    Except.ok (⟨c, t.queueAttr ++ [item']⟩, c)

/-- The call `orchestrator.next()`.  The name `"next"` is not shadowed,
so the method runs: on an empty deque it returns the `{}` sentinel
(modelled `none`) without raising; otherwise it pops the oldest item and
stamps it with an execution pulse. -/
def TaskOrchestrator.callNext (t : TaskOrchestrator) :
    Except PyError (TaskOrchestrator × Option TaskItem) :=
  if "next" ∈ taskOrchestratorInstanceAttrs then
    Except.error (PyError.typeErrorNotCallable "collections.deque")
  else
    match t.queueAttr with
    | [] => Except.ok (t, none)
    | item :: rest =>
      let c := t.issCycle + 1
      Except.ok (⟨c, rest⟩, some ⟨item.payload, item.queued_at, some c, item.completed_at⟩)

/-! ### Concrete collaborators used to exercise the embedding -/

/-- Five logic-seed ids, already sorted. -/
def fiveSeeds : List String := ["l1", "l2", "l3", "l4", "l5"]

/-- Ten philosopher ids, `"0"` to `"9"`. -/
def tenPhilosophers : List String :=
  ["0", "1", "2", "3", "4", "5", "6", "7", "8", "9"]

/-- A draw stream that proposes a fresh philosopher on every draw.
Against a vault with `tenPhilosophers` and exactly the five seeds
`fiveSeeds`, every draw of this stream is one `random.choice` /
`random.sample` outcome the source can actually produce: the i-th
iteration picks philosopher `toString i` from the ten, and sampling all
five seeds and sorting always yields `fiveSeeds` itself — so each run
below corresponds to a realizable execution of the Python loop. -/
def drawsSeq : Nat → Combo := fun i => ⟨toString i, ["l1", "l2", "l3", "l4", "l5"]⟩

/-- The single combo available from a vault with one philosopher and
exactly five logic seeds: `random.choice` always yields `"a"` and
`random.sample(logic_seeds, 5)` always yields all five seeds, so every
iteration of the `while True` loop draws this combo. -/
def comboOnly : Combo := ⟨"a", ["l1", "l2", "l3", "l4", "l5"]⟩

/-- A stub vault (ten philosophers, five seeds: combo space of size ten)
whose evaluator resolves every verdict. -/
def vaultResolveAll : Vault String :=
  ⟨tenPhilosophers, ["l1", "l2", "l3", "l4", "l5"], fun _ _ _ => "good", fun _ => true⟩

/-- A stub vault (ten philosophers, five seeds) that resolves exactly on
the combo whose philosopher is `"2"` — together with `drawsSeq` this
resolves on primary cycle 3. -/
def vaultThird : Vault String :=
  ⟨tenPhilosophers, ["l1", "l2", "l3", "l4", "l5"],
    fun _ ph _ => if ph = "2" then "good" else "bad",
    fun v => v == "good"⟩

/-- An always-unresolved evaluator over the fused record, with ten
philosophers and five seeds: its combo space (size ten) is large enough
for a full ten-attempt run, so the draws of `drawsSeq` are outcomes the
source's `random.choice(philosophers)` can actually return. -/
def vaultNever : Vault (Fused String) :=
  ⟨tenPhilosophers, ["l1", "l2", "l3", "l4", "l5"], fun _ _ _ => "bad", fun _ => false⟩

/-- An unreachable reasoning oracle: `health_check()` fails on every
conflict cycle. -/
def ollDown : OllamaOracle := ⟨fun _ => false, fun _ => none⟩

/-- A healthy oracle whose query fails on conflict cycle 1 and succeeds
on conflict cycle 2. -/
def ollUp2 : OllamaOracle :=
  ⟨fun _ => true,
    fun j => if j = 2 then some ⟨true, "bridge", "phi3"⟩ else some ⟨false, "", "phi3"⟩⟩

/-- Final run state after one evaluation with `vaultResolveAll` and
`drawsSeq`: it resolves on the first primary attempt. -/
def oneCycleState : HarmonizeState :=
  ⟨1, [⟨"0", fiveSeeds⟩], [⟨1, ⟨"0", fiveSeeds⟩, "good", true⟩]⟩

/-- Final run state after three evaluations with `vaultThird` and
`drawsSeq`: it resolves on primary attempt 3. -/
def threeCycleState : HarmonizeState :=
  ⟨3, (List.range 3).map (fun i => ⟨toString i, fiveSeeds⟩),
    [⟨1, ⟨"0", fiveSeeds⟩, "bad", false⟩,
     ⟨2, ⟨"1", fiveSeeds⟩, "bad", false⟩,
     ⟨3, ⟨"2", fiveSeeds⟩, "good", true⟩]⟩

/-- Final run state of `finalHarmonize` with `vaultNever`, `drawsSeq` and
the unreachable oracle `ollDown`: ten unresolved attempts. -/
def tenCycleState : HarmonizeState :=
  ⟨10, (List.range 10).map (fun i => ⟨toString i, fiveSeeds⟩),
    (List.range 10).map (fun i => ⟨i + 1, ⟨toString i, fiveSeeds⟩, "bad", false⟩)⟩

/-- Final run state of `finalHarmonize` with `vaultNever`, `drawsSeq` and
`ollUp2`: five unresolved primary attempts plus two conflict attempts,
the second of which escalates. -/
def sevenCycleState : HarmonizeState :=
  ⟨7, (List.range 7).map (fun i => ⟨toString i, fiveSeeds⟩),
    (List.range 7).map (fun i => ⟨i + 1, ⟨toString i, fiveSeeds⟩, "bad", false⟩)⟩

/-! ## Theorems -/

/-- C1: against a `SeedVault` with one philosopher and exactly five logic
seeds (combo space of size one, smaller than the ten combos a harmonize
run requests), every iteration of the `while True` loop of
`_pick_unique_seedset` draws `comboOnly`; once `previous_sets` holds that
combo, the loop never returns — for every retry budget the fuel-indexed
model yields `none`, so the code loops forever instead of raising an
`ExhaustedSeedSpace` condition (no such condition exists anywhere in the
repository). -/
theorem pick_unique_seedset_diverges_on_exhausted_space :
    ∀ fuel i, pickUniqueSeedset (fun _ => comboOnly) fuel i [comboOnly] = none := by
  intro fuel
  induction fuel with
  | zero => intro i; rfl
  | succ n ih =>
    intro i
    have hmem : comboOnly ∈ [comboOnly] := List.mem_singleton.mpr rfl
    simp only [pickUniqueSeedset, if_pos hmem]
    exact ih (i + 1)

/-- Every cycle component issued later by the same `ISSBrainstem`
instance is strictly above the instance's current counter. -/
theorem pulseCycles_gt (s : ISSBrainstem) :
    ∀ n x, x ∈ s.pulseCycles n → s.cycle < x := by
  intro n
  induction n generalizing s with
  | zero => intro x hx; simp [ISSBrainstem.pulseCycles] at hx
  | succ m ih =>
    intro x hx
    simp only [ISSBrainstem.pulseCycles, ISSBrainstem.pulse, List.mem_cons] at hx
    rcases hx with rfl | hx
    · exact Nat.lt_succ_self _
    · have := ih ⟨s.cycle + 1⟩ x hx
      exact Nat.lt_of_succ_lt this

/-- C9 (amended): for a single `ISSBrainstem` instance, `n` successive
`pulse()` calls yield `n` cycle components that are strictly increasing
and never reused.  (Process-wide monotonicity fails, because `Thinker`
and `TaskOrchestrator` construct private instances — see the
counterexample.) -/
theorem pulse_cycles_strictly_increasing (s : ISSBrainstem) (n : Nat) :
    (s.pulseCycles n).length = n ∧
    (s.pulseCycles n).Chain' (fun a b => a < b) ∧
    (s.pulseCycles n).Nodup := by
  induction n generalizing s with
  | zero => exact ⟨rfl, List.chain'_nil, List.nodup_nil⟩
  | succ m ih =>
    obtain ⟨hlen, hchain, hnodup⟩ := ih ⟨s.cycle + 1⟩
    refine ⟨by simp [ISSBrainstem.pulseCycles, ISSBrainstem.pulse, hlen], ?_, ?_⟩
    · simp only [ISSBrainstem.pulseCycles, ISSBrainstem.pulse]
      refine List.chain'_cons'.mpr ⟨?_, hchain⟩
      intro b hb
      exact pulseCycles_gt ⟨s.cycle + 1⟩ m b (List.mem_of_mem_head? hb)
    · simp only [ISSBrainstem.pulseCycles, ISSBrainstem.pulse, List.nodup_cons]
      refine ⟨fun hmem => ?_, hnodup⟩
      exact absurd (pulseCycles_gt ⟨s.cycle + 1⟩ m _ hmem) (by simp)

/-- C9 (counterexample): in one process the module singleton `ISS` and
the instance built by `Thinker.__init__` both start at cycle 0; pulsing
the singleton twice and then the Thinker instance once yields cycle
components 1, 2, 1 — not strictly increasing, and the component 1 is
reused.  This falsifies process-wide monotonicity across components. -/
theorem two_instance_pulse_cycles_not_increasing :
    twoBrainstemTrace = [1, 2, 1] ∧
    ¬ twoBrainstemTrace.Chain' (fun a b => a < b) ∧
    ¬ twoBrainstemTrace.Nodup := by
  refine ⟨rfl, ?_, ?_⟩
  · rw [show twoBrainstemTrace = [1, 2, 1] from rfl]
    intro h
    rcases List.chain'_cons.mp h with ⟨_, h2⟩
    rcases List.chain'_cons.mp h2 with ⟨hlt, _⟩
    omega
  · rw [show twoBrainstemTrace = [1, 2, 1] from rfl]
    intro h
    simp at h

/-- C10: on a freshly constructed `TaskOrchestrator`, the enqueue call
`orchestrator.queue(item)` does not stamp and return a pulse: attribute
lookup finds the `collections.deque` that `__init__` bound to the name
`queue`, which shadows the method of the same name, and calling it raises
`TypeError`.  The dequeue call `next()` on the empty queue does return
the `{}` sentinel without raising, as specified. -/
theorem task_orchestrator_enqueue_raises :
    TaskOrchestrator.callQueue ⟨0, []⟩ ⟨"payload", none, none, none⟩ =
      Except.error (PyError.typeErrorNotCallable "collections.deque") ∧
    TaskOrchestrator.callNext ⟨0, []⟩ = Except.ok (⟨0, []⟩, none) := by
  exact ⟨rfl, rfl⟩

/-- Sum of a list bounded above elementwise. -/
theorem list_sum_le (l : List ℚ) (hi : ℚ) (h : ∀ x ∈ l, x ≤ hi) :
    l.sum ≤ l.length * hi := by
  induction l with
  | nil => simp
  | cons a t ih =>
    have ha := h a (List.mem_cons_self a t)
    have ht := ih (fun x hx => h x (List.mem_cons_of_mem a hx))
    simp only [List.sum_cons, List.length_cons]
    push_cast
    linarith

/-- Sum of a list bounded below elementwise. -/
theorem list_le_sum (l : List ℚ) (lo : ℚ) (h : ∀ x ∈ l, lo ≤ x) :
    l.length * lo ≤ l.sum := by
  induction l with
  | nil => simp
  | cons a t ih =>
    have ha := h a (List.mem_cons_self a t)
    have ht := ih (fun x hx => h x (List.mem_cons_of_mem a hx))
    simp only [List.sum_cons, List.length_cons]
    push_cast
    linarith

/-- Sum of a constant list. -/
theorem list_sum_const (l : List ℚ) (c : ℚ) (h : ∀ x ∈ l, x = c) :
    l.sum = l.length * c := by
  induction l with
  | nil => simp
  | cons a t ih =>
    have ha := h a (List.mem_cons_self a t)
    have ht := ih (fun x hx => h x (List.mem_cons_of_mem a hx))
    simp only [List.sum_cons, List.length_cons]
    push_cast
    linarith

/-- `aggregate` of a nonempty list whose elements lie in `[lo, hi]` lies
in `[lo, hi]`. -/
theorem aggregate_bounds (l : List ℚ) (lo hi : ℚ) (hne : l ≠ [])
    (h : ∀ x ∈ l, lo ≤ x ∧ x ≤ hi) :
    lo ≤ aggregate l ∧ aggregate l ≤ hi := by
  have hlen : 0 < (l.length : ℚ) := by
    exact_mod_cast List.length_pos.mpr hne
  have hemp : l.isEmpty = false := by
    simpa [List.isEmpty_iff] using hne
  unfold aggregate
  rw [hemp]
  simp only [Bool.false_eq_true, if_false]
  constructor
  · rw [le_div_iff₀ hlen]
    have := list_le_sum l lo (fun x hx => (h x hx).1)
    linarith [this]
  · rw [div_le_iff₀ hlen]
    have := list_sum_le l hi (fun x hx => (h x hx).2)
    linarith [this]

/-- `aggregate` of a list of known nonzero length is its mean. -/
theorem aggregate_eq_mean (l : List ℚ) (n : Nat) (hn : l.length = n) (h0 : n ≠ 0) :
    aggregate l = l.sum / n := by
  have hne : l ≠ [] := by
    intro hnil
    rw [hnil] at hn
    exact h0 hn.symm
  have hemp : l.isEmpty = false := by
    simpa [List.isEmpty_iff] using hne
  unfold aggregate
  rw [hemp]
  simp only [Bool.false_eq_true, if_false, hn]

/-- Slice decomposition used by `_fan_pass` on a 2340-element list:
lengths of the three positional slices, and the sum decomposition. -/
theorem fan_pass_slices (values : List ℚ) (h : values.length = 2340) :
    (values.take 780).length = 780 ∧
    ((values.drop 780).take 780).length = 780 ∧
    ((values.drop 1560).take 780).length = 780 ∧
    (values.take 780).sum + ((values.drop 780).take 780).sum +
      ((values.drop 1560).take 780).sum = values.sum := by
  have h1 : (values.take 780).length = 780 := by
    rw [List.length_take, h]
    decide
  have h2 : ((values.drop 780).take 780).length = 780 := by
    rw [List.length_take, List.length_drop, h]
    decide
  have h3 : (values.drop 1560).take 780 = values.drop 1560 := by
    apply List.take_of_length_le
    rw [List.length_drop, h]
  have h4 : ((values.drop 1560).take 780).length = 780 := by
    rw [h3, List.length_drop, h]
  refine ⟨h1, h2, h4, ?_⟩
  rw [h3]
  have e1 : values = values.take 780 ++ values.drop 780 := (List.take_append_drop _ _).symm
  have e2 : values.drop 780 = (values.drop 780).take 780 ++ (values.drop 780).drop 780 :=
    (List.take_append_drop _ _).symm
  have e3 : (values.drop 780).drop 780 = values.drop 1560 := by
    rw [List.drop_drop]
  calc (values.take 780).sum + ((values.drop 780).take 780).sum + (values.drop 1560).sum
      = (values.take 780).sum + (((values.drop 780).take 780).sum + ((values.drop 780).drop 780).sum) := by
        rw [e3]; ring
    _ = (values.take 780).sum + (values.drop 780).sum := by
        rw [← List.sum_append, ← e2]
    _ = values.sum := by
        rw [← List.sum_append, ← e1]

/-- `aggregate` on a two-element list. -/
theorem aggregate_two (x y : ℚ) : aggregate [x, y] = (x + y) / 2 := by
  simp [aggregate]

/-- `aggregate` on a three-element list. -/
theorem aggregate_three (x y z : ℚ) : aggregate [x, y, z] = (x + y + z) / 3 := by
  simp [aggregate]
  ring_nf

/-- The final node of `_fan_pass` on a 2340-element list is the
arithmetic mean of all the values. -/
theorem fan_pass_out1_eq_mean (values : List ℚ) (h : values.length = 2340) :
    (fan_pass values).out1 = values.sum / 2340 := by
  obtain ⟨h1, h2, h3, hsum⟩ := fan_pass_slices values h
  unfold fan_pass
  simp only
  rw [aggregate_eq_mean _ 780 h1 (by norm_num),
      aggregate_eq_mean _ 780 h2 (by norm_num),
      aggregate_eq_mean _ 780 h3 (by norm_num)]
  simp only [aggregate_three, aggregate_two]
  rw [← hsum]
  push_cast
  ring

/-- C7: on any 2340-element fired list, the fan-pass final node equals
the arithmetic mean of all 2340 values, and is therefore invariant under
any permutation of the fired values — the construction-time shuffle of
the synapse order has no effect on the final aggregation. -/
theorem fan_pass_mean_and_perm_invariant (values values' : List ℚ)
    (h : values.length = 2340) (hperm : values.Perm values') :
    (fan_pass values).out1 = values.sum / 2340 ∧
    (fan_pass values').out1 = (fan_pass values).out1 := by
  have h' : values'.length = 2340 := by
    rw [← hperm.length_eq, h]
  have e1 := fan_pass_out1_eq_mean values h
  have e2 := fan_pass_out1_eq_mean values' h'
  exact ⟨e1, by rw [e1, e2, hperm.sum_eq]⟩

/-- Witness for C7: the list 0,1,...,2339 and its reversal. -/
theorem fan_pass_mean_and_perm_invariant_witness :
    (fan_pass ((List.range 2340).map (fun i => ((i : Nat) : ℚ)))).out1 =
      ((List.range 2340).map (fun i => ((i : Nat) : ℚ))).sum / 2340 ∧
    (fan_pass ((List.range 2340).map (fun i => ((i : Nat) : ℚ))).reverse).out1 =
      (fan_pass ((List.range 2340).map (fun i => ((i : Nat) : ℚ)))).out1 :=
  fan_pass_mean_and_perm_invariant _ _
    (by rw [List.length_map, List.length_range]) (List.reverse_perm _).symm

/-- The synapse bank built by `_build_synapses` has 2340 units. -/
theorem length_buildSynapses (sI sH sK : Seed) :
    (buildSynapses sI sH sK).length = 2340 := by
  unfold buildSynapses
  rw [List.length_flatten, List.map_replicate, List.sum_replicate]
  rw [show ([synapseOf "intuition" sI, synapseOf "induction" sH,
    synapseOf "deduction" sK].length) = 3 from rfl, smul_eq_mul]

/-- Every unit of the built bank is one of the three configured synapse
shapes. -/
theorem mem_buildSynapses (sI sH sK : Seed) (s : Synapse)
    (h : s ∈ buildSynapses sI sH sK) :
    s = synapseOf "intuition" sI ∨ s = synapseOf "induction" sH ∨
      s = synapseOf "deduction" sK := by
  unfold buildSynapses at h
  rw [List.mem_flatten] at h
  obtain ⟨l, hl, hs⟩ := h
  have := List.eq_of_mem_replicate hl
  subst this
  simpa using hs

/-- The zero draw is admissible for every synapse with nonnegative mod. -/
theorem drawAdmissible_zero (s : Synapse) (hm : 0 ≤ s.mod) :
    s.drawAdmissible 0 := by
  unfold Synapse.drawAdmissible
  split_ifs
  all_goals first
  | trivial
  | exact ⟨by linarith, by linarith⟩

/-- Interval bound on one `fire`: with nonnegative configuration, a draw
within the mode's range and a nonnegative stimulus, the fired value lies
within `stim * (1 ± P)` for any `P` above the synapse's perturbation
bound. -/
theorem fire_bounds (s : Synapse) (u stim P : ℚ)
    (hb : s.mode = "intuition" → 0 ≤ s.bias) (hm : 0 ≤ s.mod) (hstim : 0 ≤ stim)
    (hadm : s.drawAdmissible u) (hP : pertBound s ≤ P) :
    stim * (1 - P) ≤ s.fire u stim ∧ s.fire u stim ≤ stim * (1 + P) := by
  unfold Synapse.fire
  unfold Synapse.drawAdmissible at hadm
  unfold pertBound at hP
  by_cases h1 : s.mode = "intuition"
  · rw [if_pos h1] at hadm ⊢
    rw [if_pos h1] at hP
    have hb' := hb h1
    obtain ⟨hu1, hu2⟩ := hadm
    constructor
    · have hx : 0 ≤ s.bias + u + P := by linarith
      nlinarith [mul_nonneg hstim hx]
    · have hx : 0 ≤ P - s.bias - u := by linarith
      nlinarith [mul_nonneg hstim hx]
  · rw [if_neg h1] at hadm ⊢
    rw [if_neg h1] at hP
    by_cases h2 : s.mode = "induction"
    · rw [if_pos h2] at hadm ⊢
      rw [if_pos h2] at hP
      obtain ⟨hu1, hu2⟩ := hadm
      constructor
      · have hx : 0 ≤ u + P := by linarith
        nlinarith [mul_nonneg hstim hx]
      · have hx : 0 ≤ P - u := by linarith
        nlinarith [mul_nonneg hstim hx]
    · rw [if_neg h2] at hadm ⊢
      rw [if_neg h2] at hP
      by_cases h3 : s.mode = "deduction"
      · rw [if_pos h3] at hadm ⊢
        rw [if_pos h3] at hP
        obtain ⟨hu1, hu2⟩ := hadm
        constructor
        · have hx : 0 ≤ u + P := by linarith
          nlinarith [mul_nonneg hstim hx]
        · have hx : 0 ≤ P - u := by linarith
          nlinarith [mul_nonneg hstim hx]
      · rw [if_neg h3] at hP ⊢
        constructor
        · nlinarith [mul_nonneg hstim hP]
        · nlinarith [mul_nonneg hstim hP]

/-- Every fired value of a (shuffled) bank built from the three seeds
lies within `stim * (1 ± maxPerturbation)`. -/
theorem fireAll_mem_bounds (sI sH sK : Seed) (bank : List Synapse)
    (draws : List ℚ) (stim : ℚ)
    (hstim : 0 ≤ stim) (hbI : 0 ≤ sI.bias) (hmI : 0 ≤ sI.mod)
    (hmH : 0 ≤ sH.mod) (hmK : 0 ≤ sK.mod)
    (hbank : (buildSynapses sI sH sK).Perm bank)
    (hadm : ∀ p ∈ bank.zip draws, Synapse.drawAdmissible p.1 p.2) :
    ∀ x ∈ fireAll bank draws stim,
      stim * (1 - maxPerturbation sI sH sK) ≤ x ∧
      x ≤ stim * (1 + maxPerturbation sI sH sK) := by
  intro x hx
  unfold fireAll at hx
  rw [List.mem_map] at hx
  obtain ⟨p, hp, rfl⟩ := hx
  obtain ⟨a, b⟩ := p
  obtain ⟨ha, _⟩ := List.of_mem_zip hp
  have hmem := mem_buildSynapses sI sH sK a (hbank.mem_iff.mpr ha)
  have hadm' := hadm (a, b) hp
  rcases hmem with rfl | rfl | rfl
  · exact fire_bounds _ _ _ _ (fun _ => hbI) hmI hstim hadm'
      (le_max_left _ _)
  · exact fire_bounds _ _ _ _ (fun hmode => by simp [synapseOf] at hmode) hmH hstim hadm'
      (le_trans (le_max_left _ _) (le_max_right _ _))
  · exact fire_bounds _ _ _ _ (fun hmode => by simp [synapseOf] at hmode) hmK hstim hadm'
      (le_trans (le_max_right _ _) (le_max_right _ _))

/-- Interval bound propagated through the whole fan-pass pyramid. -/
theorem fan_pass_out1_bounds (values : List ℚ) (lo hi : ℚ)
    (hlen : values.length = 2340)
    (h : ∀ x ∈ values, lo ≤ x ∧ x ≤ hi) :
    lo ≤ (fan_pass values).out1 ∧ (fan_pass values).out1 ≤ hi := by
  obtain ⟨h1, h2, h3, _⟩ := fan_pass_slices values hlen
  have hb6 := aggregate_bounds (values.take 780) lo hi
    (List.ne_nil_of_length_pos (by rw [h1]; norm_num))
    (fun x hx => h x (List.take_subset _ _ hx))
  have hb5 := aggregate_bounds ((values.drop 780).take 780) lo hi
    (List.ne_nil_of_length_pos (by rw [h2]; norm_num))
    (fun x hx => h x (List.drop_subset _ _ (List.take_subset _ _ hx)))
  have hb4 := aggregate_bounds ((values.drop 1560).take 780) lo hi
    (List.ne_nil_of_length_pos (by rw [h3]; norm_num))
    (fun x hx => h x (List.drop_subset _ _ (List.take_subset _ _ hx)))
  unfold fan_pass
  simp only
  have hb3 := aggregate_bounds
    [aggregate ((values.drop 1560).take 780), aggregate ((values.drop 780).take 780),
      aggregate (values.take 780)] lo hi (by simp)
    (by
      intro x hx
      simp only [List.mem_cons, List.not_mem_nil, or_false] at hx
      rcases hx with rfl | rfl | rfl
      · exact hb4
      · exact hb5
      · exact hb6)
  exact aggregate_bounds _ lo hi (by simp)
    (by
      intro x hx
      simp only [List.mem_cons, List.not_mem_nil, or_false] at hx
      rcases hx with rfl | rfl
      · exact hb3
      · exact hb3)

/-- C6: for a stimulus in `[0, 1]`, nonnegatively configured seeds, a
bank that is any shuffle of `_build_synapses`, and per-synapse draws each
within its mode's `random.uniform` range, the `verdictScalar` of
`resonate` lies in
`[stimulus * (1 - maxPerturbation), stimulus * (1 + maxPerturbation)]`,
where `maxPerturbation` is the largest of `bias + mod` (intuition),
`2 * mod` (induction) and `mod` (deduction). -/
theorem resonate_verdict_within_bound (sI sH sK : Seed) (bank : List Synapse)
    (draws : List ℚ) (stim : ℚ)
    (hstim0 : 0 ≤ stim) (_hstim1 : stim ≤ 1)
    (hbI : 0 ≤ sI.bias) (hmI : 0 ≤ sI.mod) (hmH : 0 ≤ sH.mod) (hmK : 0 ≤ sK.mod)
    (hbank : (buildSynapses sI sH sK).Perm bank) (hlen : draws.length = 2340)
    (hadm : ∀ p ∈ bank.zip draws, Synapse.drawAdmissible p.1 p.2) :
    stim * (1 - maxPerturbation sI sH sK) ≤ resonateVerdict bank draws stim ∧
    resonateVerdict bank draws stim ≤ stim * (1 + maxPerturbation sI sH sK) := by
  have hbl : bank.length = 2340 := by
    rw [← hbank.length_eq, length_buildSynapses]
  have hfl : (fireAll bank draws stim).length = 2340 := by
    unfold fireAll
    rw [List.length_map, List.length_zip, hbl, hlen]
    decide
  exact fan_pass_out1_bounds _ _ _ hfl
    (fireAll_mem_bounds sI sH sK bank draws stim hstim0 hbI hmI hmH hmK hbank hadm)

/-- Witness for C6: concrete seeds, the unshuffled bank, all draws 0,
stimulus one half. -/
theorem resonate_verdict_within_bound_witness :
    (1 / 2 : ℚ) * (1 - maxPerturbation ⟨1 / 10, 1 / 50⟩ ⟨0, 1 / 50⟩ ⟨0, 1 / 50⟩) ≤
      resonateVerdict (buildSynapses ⟨1 / 10, 1 / 50⟩ ⟨0, 1 / 50⟩ ⟨0, 1 / 50⟩)
        (List.replicate 2340 0) (1 / 2) ∧
    resonateVerdict (buildSynapses ⟨1 / 10, 1 / 50⟩ ⟨0, 1 / 50⟩ ⟨0, 1 / 50⟩)
        (List.replicate 2340 0) (1 / 2) ≤
      (1 / 2 : ℚ) * (1 + maxPerturbation ⟨1 / 10, 1 / 50⟩ ⟨0, 1 / 50⟩ ⟨0, 1 / 50⟩) := by
  apply resonate_verdict_within_bound ⟨1 / 10, 1 / 50⟩ ⟨0, 1 / 50⟩ ⟨0, 1 / 50⟩ _ _ _
    (by norm_num) (by norm_num) (by norm_num) (by norm_num) (by norm_num) (by norm_num)
    (List.Perm.refl _) (List.length_replicate _ _)
  intro p hp
  obtain ⟨a, b⟩ := p
  obtain ⟨ha, hb⟩ := List.of_mem_zip hp
  obtain rfl := List.eq_of_mem_replicate hb
  apply drawAdmissible_zero
  rcases mem_buildSynapses _ _ _ _ ha with rfl | rfl | rfl <;> norm_num [synapseOf]

/-- C8: with every synapse configured at `bias = 0` and `mod = 0`, every
admissible draw is forced to zero, every fire is the identity, and
`resonate` on stimulus one half returns exactly one half. -/
theorem resonate_zero_config_half (bank : List Synapse) (draws : List ℚ)
    (hbank : (buildSynapses ⟨0, 0⟩ ⟨0, 0⟩ ⟨0, 0⟩).Perm bank)
    (hlen : draws.length = 2340)
    (hadm : ∀ p ∈ bank.zip draws, Synapse.drawAdmissible p.1 p.2) :
    resonateVerdict bank draws (1 / 2) = 1 / 2 := by
  have hbl : bank.length = 2340 := by
    rw [← hbank.length_eq, length_buildSynapses]
  have hfl : (fireAll bank draws (1 / 2)).length = 2340 := by
    unfold fireAll
    rw [List.length_map, List.length_zip, hbl, hlen]
    decide
  have hconst : ∀ x ∈ fireAll bank draws (1 / 2), x = 1 / 2 := by
    intro x hx
    unfold fireAll at hx
    rw [List.mem_map] at hx
    obtain ⟨p, hp, rfl⟩ := hx
    obtain ⟨a, b⟩ := p
    obtain ⟨ha, _⟩ := List.of_mem_zip hp
    have hadm' := hadm (a, b) hp
    have hmem := mem_buildSynapses _ _ _ a (hbank.mem_iff.mpr ha)
    have hfb : 1 / 2 * (1 - 0) ≤ Synapse.fire a b (1 / 2) ∧
        Synapse.fire a b (1 / 2) ≤ 1 / 2 * (1 + 0) := by
      rcases hmem with rfl | rfl | rfl <;>
        exact fire_bounds _ _ _ _ (fun _ => by norm_num [synapseOf])
          (by norm_num [synapseOf]) (by norm_num) hadm'
          (by norm_num [synapseOf, pertBound])
    have h1' := hfb.1
    have h2' := hfb.2
    linarith
  unfold resonateVerdict
  rw [fan_pass_out1_eq_mean _ hfl, list_sum_const _ (1 / 2) hconst, hfl]
  norm_num

/-- Witness for C8: the unshuffled all-zero bank with all draws 0. -/
theorem resonate_zero_config_half_witness :
    resonateVerdict (buildSynapses ⟨0, 0⟩ ⟨0, 0⟩ ⟨0, 0⟩) (List.replicate 2340 0) (1 / 2) =
      1 / 2 := by
  apply resonate_zero_config_half _ _ (List.Perm.refl _) (List.length_replicate _ _)
  intro p hp
  obtain ⟨a, b⟩ := p
  obtain ⟨ha, hb⟩ := List.of_mem_zip hp
  obtain rfl := List.eq_of_mem_replicate hb
  apply drawAdmissible_zero
  rcases mem_buildSynapses _ _ _ _ ha with rfl | rfl | rfl <;> norm_num [synapseOf]

/-- A successful `_pick_unique_seedset` returns a combo that was not in
`previous_sets` and appends exactly it. -/
theorem pickUniqueSeedset_spec (draws : Nat → Combo) :
    ∀ fuel i prev combo i' prev',
      pickUniqueSeedset draws fuel i prev = some (combo, i', prev') →
      combo ∉ prev ∧ prev' = prev ++ [combo] := by
  intro fuel
  induction fuel with
  | zero =>
    intro i prev combo i' prev' h
    exact absurd h (by simp [pickUniqueSeedset])
  | succ n ih =>
    intro i prev combo i' prev' h
    by_cases hc : draws i ∈ prev
    · rw [pickUniqueSeedset, if_pos hc] at h
      exact ih _ _ _ _ _ h
    · rw [pickUniqueSeedset, if_neg hc] at h
      obtain ⟨rfl, rfl, rfl⟩ :
          draws i = combo ∧ i + 1 = i' ∧ prev ++ [draws i] = prev' := by
        simpa using h
      exact ⟨hc, rfl⟩

/-- Appending a fresh element keeps a list duplicate-free. -/
theorem nodup_append_singleton {α : Type} (l : List α) (a : α)
    (h1 : l.Nodup) (h2 : a ∉ l) : (l ++ [a]).Nodup := by
  rw [List.nodup_append]
  refine ⟨h1, List.nodup_singleton a, ?_⟩
  intro x hx hx'
  exact h2 ((List.mem_singleton.mp hx') ▸ hx)

/-- The run-state invariant of every harmonizer loop:
`previous_sets` is exactly the list of combos of the trace so far, in
order, and holds no duplicate. -/
theorem runCycles_state_invariant (I : Type) (vault : Vault I) (draws : Nat → Combo)
    (input : I) (source : String) (fuel : Nat) :
    ∀ count off st res1 st',
      st.prev = st.records.map (fun rec => rec.combo) → st.prev.Nodup →
      runCycles I vault draws input source fuel off count st = some (res1, st') →
      st'.prev = st'.records.map (fun rec => rec.combo) ∧ st'.prev.Nodup := by
  intro count
  induction count with
  | zero =>
    intro off st res1 st' h1 h2 h
    obtain ⟨rfl, rfl⟩ : none = res1 ∧ st = st' := by
      simpa [runCycles] using h
    exact ⟨h1, h2⟩
  | succ n ih =>
    intro off st res1 st' h1 h2 h
    cases hp : pickUniqueSeedset draws fuel st.drawIdx st.prev with
    | none =>
      rw [runCycles, hp] at h
      exact absurd h (by simp)
    | some picked =>
      obtain ⟨combo, i', prev'⟩ := picked
      obtain ⟨hnot, hpe⟩ := pickUniqueSeedset_spec draws fuel _ _ _ _ _ hp
      rw [runCycles, hp] at h
      dsimp only at h
      have h1' : prev' = (st.records ++
          [CycleRecord.mk (off + 1) combo
            (vault.evaluate input combo.philosopher combo.logicSet)
            (vault.is_resolved (vault.evaluate input combo.philosopher combo.logicSet))]).map
          (fun rec => rec.combo) := by
        rw [hpe, h1, List.map_append]
        rfl
      have h2' : prev'.Nodup := by
        rw [hpe]
        exact nodup_append_singleton st.prev combo h2 hnot
      by_cases hres : vault.is_resolved (vault.evaluate input combo.philosopher combo.logicSet) = true
      · rw [if_pos hres] at h
        simp only [Option.some.injEq, Prod.mk.injEq] at h
        obtain ⟨hres1, hst⟩ := h
        subst hst
        exact ⟨h1', h2'⟩
      · rw [if_neg hres] at h
        exact ih (off + 1) _ res1 st' h1' h2' h

/-- C2: within one `HemisphereHarmonizer.harmonize` run (left or right —
both bodies are identical up to the `source` string), the sequence of
(philosopher, sorted logic-set) combos handed to `vault.evaluate` — the
trace recorded by the run — contains no duplicate: every two distinct
evaluation cycles use different combos. -/
theorem hemisphere_combos_nodup (I : Type) (vault : Vault I) (draws : Nat → Combo)
    (input : I) (source : String) (fuel : Nat) (r : HarmonizationResult)
    (st : HarmonizeState)
    (h : hemisphereHarmonize I vault draws input source fuel = some (r, st)) :
    (st.records.map (fun rec => rec.combo)).Nodup := by
  unfold hemisphereHarmonize at h
  cases h1 : runCycles I vault draws input source fuel 0 base_cycles ⟨0, [], []⟩ with
  | none => rw [h1] at h; exact absurd h (by simp)
  | some out1 =>
    obtain ⟨res1, st1⟩ := out1
    rw [h1] at h
    have hinv1 := runCycles_state_invariant I vault draws input source fuel
      base_cycles 0 ⟨0, [], []⟩ res1 st1 rfl List.nodup_nil h1
    cases res1 with
    | some r1 =>
      simp only [Option.some.injEq, Prod.mk.injEq] at h
      obtain ⟨rfl, rfl⟩ := h
      rw [← hinv1.1]
      exact hinv1.2
    | none =>
      dsimp only at h
      cases h2 : runCycles I vault draws input source fuel base_cycles conflict_cycles st1 with
      | none => rw [h2] at h; exact absurd h (by simp)
      | some out2 =>
        obtain ⟨res2, st2⟩ := out2
        rw [h2] at h
        have hinv2 := runCycles_state_invariant I vault draws input source fuel
          conflict_cycles base_cycles st1 res2 st2 hinv1.1 hinv1.2 h2
        cases res2 with
        | some r2 =>
          simp only [Option.some.injEq, Prod.mk.injEq] at h
          obtain ⟨rfl, rfl⟩ := h
          rw [← hinv2.1]
          exact hinv2.2
        | none =>
          simp only [Option.some.injEq, Prod.mk.injEq] at h
          obtain ⟨rfl, rfl⟩ := h
          rw [← hinv2.1]
          exact hinv2.2

/-- Witness for C2: a one-cycle run with an immediately-resolving
evaluator draws a duplicate-free combo trace. -/
theorem hemisphere_combos_nodup_witness :
    ((oneCycleState).records.map (fun rec => rec.combo)).Nodup :=
  hemisphere_combos_nodup String vaultResolveAll drawsSeq "x" "Left_Hemisphere" 1
    ⟨"Left_Hemisphere", "good", some 1, "resolved", none⟩ oneCycleState (by decide)

/-- The last element of a list is a member. -/
theorem mem_of_getLast_opt {α : Type} :
    ∀ (l : List α) (a : α), l.getLast? = some a → a ∈ l := by
  intro l
  induction l with
  | nil => intro a h; simp at h
  | cons x xs ih =>
    intro a h
    cases xs with
    | nil =>
      simp only [List.getLast?_singleton, Option.some.injEq] at h
      rw [← h]
      exact List.mem_singleton_self x
    | cons y ys =>
      rw [List.getLast?_cons_cons] at h
      exact List.mem_cons_of_mem x (ih a h)

/-- A harmonizer loop that completes all its iterations without
resolution appends exactly `count` trace records, all unresolved, each
an evaluate call whose resolution check failed. -/
theorem runCycles_none_char (I : Type) (vault : Vault I) (draws : Nat → Combo)
    (input : I) (source : String) (fuel : Nat) :
    ∀ count off st st',
      runCycles I vault draws input source fuel off count st = some (none, st') →
      ∃ tl, st'.records = st.records ++ tl ∧ tl.length = count ∧
        ∀ rec ∈ tl, rec.resolved = false ∧ vault.is_resolved rec.verdict = false := by
  intro count
  induction count with
  | zero =>
    intro off st st' h
    obtain rfl : st = st' := by simpa [runCycles] using h
    exact ⟨[], by simp, rfl, by simp⟩
  | succ n ih =>
    intro off st st' h
    cases hp : pickUniqueSeedset draws fuel st.drawIdx st.prev with
    | none =>
      rw [runCycles, hp] at h
      exact absurd h (by simp)
    | some picked =>
      obtain ⟨combo, i', prev'⟩ := picked
      rw [runCycles, hp] at h
      dsimp only at h
      by_cases hres :
          vault.is_resolved (vault.evaluate input combo.philosopher combo.logicSet) = true
      · rw [if_pos hres] at h
        exact absurd h (by simp)
      · rw [if_neg hres] at h
        have hres' :
            vault.is_resolved (vault.evaluate input combo.philosopher combo.logicSet) = false :=
          by simpa using hres
        obtain ⟨tl, htl, hlen, hall⟩ := ih (off + 1) _ st' h
        refine ⟨CycleRecord.mk (off + 1) combo
          (vault.evaluate input combo.philosopher combo.logicSet)
          (vault.is_resolved (vault.evaluate input combo.philosopher combo.logicSet)) :: tl,
          ?_, by simp [hlen], ?_⟩
        · rw [htl]
          simp
        · intro rec hrec
          rcases List.mem_cons.mp hrec with rfl | hrec'
          · exact ⟨hres', hres'⟩
          · exact hall rec hrec'

/-- A harmonizer loop that returns a result does so at its first
resolving attempt: the appended trace is a block of unresolved records
followed by one resolved record, and the returned dict is the resolved
dict of that last record, with `cycles` equal to the total number of
attempts made in the run so far. -/
theorem runCycles_some_char (I : Type) (vault : Vault I) (draws : Nat → Combo)
    (input : I) (source : String) (fuel : Nat) :
    ∀ count off st r st',
      off = st.records.length →
      runCycles I vault draws input source fuel off count st = some (some r, st') →
      ∃ tl rec, st'.records = st.records ++ tl ++ [rec] ∧
        (∀ x ∈ tl, x.resolved = false ∧ vault.is_resolved x.verdict = false) ∧
        rec.resolved = true ∧ vault.is_resolved rec.verdict = true ∧
        tl.length + 1 ≤ count ∧
        r = ⟨source, rec.verdict, some st'.records.length, "resolved", none⟩ := by
  intro count
  induction count with
  | zero =>
    intro off st r st' hoff h
    exact absurd h (by simp [runCycles])
  | succ n ih =>
    intro off st r st' hoff h
    cases hp : pickUniqueSeedset draws fuel st.drawIdx st.prev with
    | none =>
      rw [runCycles, hp] at h
      exact absurd h (by simp)
    | some picked =>
      obtain ⟨combo, i', prev'⟩ := picked
      rw [runCycles, hp] at h
      dsimp only at h
      by_cases hres :
          vault.is_resolved (vault.evaluate input combo.philosopher combo.logicSet) = true
      · rw [if_pos hres] at h
        simp only [Option.some.injEq, Prod.mk.injEq] at h
        obtain ⟨hr, hst⟩ := h
        subst hst
        refine ⟨[], CycleRecord.mk (off + 1) combo
          (vault.evaluate input combo.philosopher combo.logicSet)
          (vault.is_resolved (vault.evaluate input combo.philosopher combo.logicSet)),
          by simp, by simp, hres, hres, by simp, ?_⟩
        rw [← hr]
        simp [hoff]
      · rw [if_neg hres] at h
        have hres' :
            vault.is_resolved (vault.evaluate input combo.philosopher combo.logicSet) = false :=
          by simpa using hres
        obtain ⟨tl, rec, hrecs, hall, hrt, hvt, hlen, hr⟩ := ih (off + 1)
          ⟨i', prev', st.records ++ [CycleRecord.mk (off + 1) combo
            (vault.evaluate input combo.philosopher combo.logicSet)
            (vault.is_resolved (vault.evaluate input combo.philosopher combo.logicSet))]⟩
          r st' (by simp [hoff]) h
        refine ⟨CycleRecord.mk (off + 1) combo
          (vault.evaluate input combo.philosopher combo.logicSet)
          (vault.is_resolved (vault.evaluate input combo.philosopher combo.logicSet)) :: tl,
          rec, ?_, ?_, hrt, hvt, by simp only [List.length_cons]; omega, hr⟩
        · rw [hrecs]
          simp
        · intro x hx
          rcases List.mem_cons.mp hx with rfl | hx'
          · exact ⟨hres', hres'⟩
          · exact hall x hx'

/-- C5: a hemisphere `harmonize` run returns at its first resolving
attempt — every attempt before the last is unresolved, the run makes at
most `base_cycles + conflict_cycles` (10) attempts, the run either ends
on a resolved attempt or makes exactly 10 attempts, and the returned
dict is exactly the spec-side outcome of the trace: `status resolved`,
the resolving verdict and `cycles = k` when the first resolved verdict
occurs on attempt `k`, and the `"UNRESOLVED"` dict with `cycles = 10`
after ten unresolved attempts. -/
theorem hemisphere_harmonize_first_resolved (I : Type) (vault : Vault I)
    (draws : Nat → Combo) (input : I) (source : String) (fuel : Nat)
    (r : HarmonizationResult) (st : HarmonizeState)
    (h : hemisphereHarmonize I vault draws input source fuel = some (r, st)) :
    st.records.dropLast.all (fun rec => !rec.resolved) = true ∧
    st.records.length ≤ base_cycles + conflict_cycles ∧
    (st.records.getLast?.elim false (fun rec => rec.resolved) = true ∨
      st.records.length = base_cycles + conflict_cycles) ∧
    r = specHemiOutcome source st.records := by
  unfold hemisphereHarmonize at h
  cases h1 : runCycles I vault draws input source fuel 0 base_cycles ⟨0, [], []⟩ with
  | none => rw [h1] at h; exact absurd h (by simp)
  | some out1 =>
    obtain ⟨res1, st1⟩ := out1
    rw [h1] at h
    cases res1 with
    | some r1 =>
      simp only [Option.some.injEq, Prod.mk.injEq] at h
      obtain ⟨rfl, rfl⟩ := h
      obtain ⟨tl, rec, hrecs, hall, hrt, _, hlen, hr⟩ :=
        runCycles_some_char I vault draws input source fuel base_cycles 0
          ⟨0, [], []⟩ r1 st1 rfl h1
      simp only at hrecs
      rw [List.nil_append] at hrecs
      refine ⟨?_, ?_, ?_, ?_⟩
      · rw [hrecs, List.dropLast_concat, List.all_eq_true]
        intro x hx
        simp [(hall x hx).1]
      · rw [hrecs]
        simp only [List.length_append, List.length_singleton]
        unfold base_cycles at hlen
        unfold base_cycles conflict_cycles
        omega
      · left
        rw [hrecs, List.getLast?_concat]
        simpa using hrt
      · rw [hr]
        unfold specHemiOutcome
        rw [hrecs, List.getLast?_concat]
        dsimp only
        rw [if_pos hrt]
    | none =>
      dsimp only at h
      obtain ⟨tl1, hrecs1, hlen1, hall1⟩ :=
        runCycles_none_char I vault draws input source fuel base_cycles 0 ⟨0, [], []⟩ st1 h1
      simp only at hrecs1
      rw [List.nil_append] at hrecs1
      cases h2 : runCycles I vault draws input source fuel base_cycles conflict_cycles st1 with
      | none => rw [h2] at h; exact absurd h (by simp)
      | some out2 =>
        obtain ⟨res2, st2⟩ := out2
        rw [h2] at h
        cases res2 with
        | some r2 =>
          simp only [Option.some.injEq, Prod.mk.injEq] at h
          obtain ⟨rfl, rfl⟩ := h
          obtain ⟨tl, rec, hrecs, hall, hrt, _, hlen, hr⟩ :=
            runCycles_some_char I vault draws input source fuel conflict_cycles base_cycles
              st1 r2 st2 (by rw [hrecs1, hlen1]) h2
          refine ⟨?_, ?_, ?_, ?_⟩
          · rw [hrecs, List.dropLast_concat, List.all_eq_true]
            intro x hx
            rcases List.mem_append.mp hx with hx' | hx'
            · rw [hrecs1] at hx'
              simp [(hall1 x hx').1]
            · simp [(hall x hx').1]
          · rw [hrecs]
            simp only [List.length_append, List.length_singleton, hrecs1, hlen1]
            unfold conflict_cycles at hlen
            unfold base_cycles conflict_cycles
            omega
          · left
            rw [hrecs, List.getLast?_concat]
            simpa using hrt
          · rw [hr]
            unfold specHemiOutcome
            rw [hrecs, List.getLast?_concat]
            dsimp only
            rw [if_pos hrt]
        | none =>
          simp only [Option.some.injEq, Prod.mk.injEq] at h
          obtain ⟨rfl, rfl⟩ := h
          obtain ⟨tl2, hrecs2, hlen2, hall2⟩ :=
            runCycles_none_char I vault draws input source fuel conflict_cycles base_cycles
              st1 st2 h2
          have hallst : ∀ x ∈ st2.records, x.resolved = false := by
            intro x hx
            rw [hrecs2] at hx
            rcases List.mem_append.mp hx with hx' | hx'
            · rw [hrecs1] at hx'
              exact (hall1 x hx').1
            · exact (hall2 x hx').1
          have hlenst : st2.records.length = base_cycles + conflict_cycles := by
            rw [hrecs2]
            simp only [List.length_append, hrecs1, hlen1, hlen2]
          refine ⟨?_, by rw [hlenst], Or.inr hlenst, ?_⟩
          · rw [List.all_eq_true]
            intro x hx
            have hx' := (List.dropLast_sublist st2.records).subset hx
            simp [hallst x hx']
          · cases hL : st2.records.getLast? with
            | none =>
              rw [List.getLast?_eq_none_iff] at hL
              rw [hL] at hlenst
              simp [base_cycles, conflict_cycles] at hlenst
            | some rec =>
              have hmem := mem_of_getLast_opt st2.records rec hL
              unfold specHemiOutcome
              rw [hL]
              dsimp only
              rw [if_neg (by simp [hallst rec hmem])]

/-- Witness for C5: the stub evaluator `vaultThird` resolves on primary
cycle 3, so the run traces two unresolved attempts and one resolved
attempt, and returns the resolved dict with `cycles = 3`. -/
theorem hemisphere_harmonize_first_resolved_witness :
    (threeCycleState).records.dropLast.all (fun rec => !rec.resolved) = true ∧
    (threeCycleState).records.length ≤ base_cycles + conflict_cycles ∧
    ((threeCycleState).records.getLast?.elim false (fun rec => rec.resolved) = true ∨
      (threeCycleState).records.length = base_cycles + conflict_cycles) ∧
    (⟨"Left_Hemisphere", "good", some 3, "resolved", none⟩ : HarmonizationResult) =
      specHemiOutcome "Left_Hemisphere" (threeCycleState).records :=
  hemisphere_harmonize_first_resolved String vaultThird drawsSeq "x" "Left_Hemisphere" 1
    ⟨"Left_Hemisphere", "good", some 3, "resolved", none⟩ threeCycleState (by decide)

/-- With an always-unresolved evaluator no `runCycles` loop started on a
consistent attempt offset can return a result. -/
theorem runCycles_no_resolution (I : Type) (vault : Vault I) (draws : Nat → Combo)
    (input : I) (source : String) (fuel : Nat) (count off : Nat) (st : HarmonizeState)
    (r : HarmonizationResult) (st' : HarmonizeState)
    (hres : ∀ v, vault.is_resolved v = false)
    (hoff : off = st.records.length)
    (h : runCycles I vault draws input source fuel off count st = some (some r, st')) :
    False := by
  obtain ⟨_, rec, _, _, _, hvt, _, _⟩ :=
    runCycles_some_char I vault draws input source fuel count off st r st' hoff h
  rw [hres rec.verdict] at hvt
  exact Bool.false_ne_true hvt

/-- With an always-unresolved evaluator and an unreachable oracle
(`health_check` failing), the final-harmonizer conflict loop never
escalates and never resolves: it completes all its iterations, appending
one evaluate-call record per iteration. -/
theorem finalConflict_down_char (D : Type) (vault : Vault (Fused D))
    (draws : Nat → Combo) (oll : OllamaOracle) (fused : Fused D) (fuel : Nat)
    (hres : ∀ v, vault.is_resolved v = false)
    (hhealth : ∀ c, oll.health c = false) :
    ∀ count c st res1 st',
      finalConflict D vault draws oll fused fuel c count st = some (res1, st') →
      res1 = none ∧ st'.records.length = st.records.length + count := by
  intro count
  induction count with
  | zero =>
    intro c st res1 st' h
    obtain ⟨rfl, rfl⟩ : none = res1 ∧ st = st' := by
      simpa [finalConflict] using h
    exact ⟨rfl, by simp⟩
  | succ n ih =>
    intro c st res1 st' h
    cases hp : pickUniqueSeedset draws fuel st.drawIdx st.prev with
    | none =>
      rw [finalConflict, hp] at h
      exact absurd h (by simp)
    | some picked =>
      obtain ⟨combo, i', prev'⟩ := picked
      rw [finalConflict, hp] at h
      dsimp only at h
      rw [hres (vault.evaluate fused combo.philosopher combo.logicSet), hhealth c] at h
      simp only [Bool.not_false, Bool.and_false, Bool.false_eq_true, if_false] at h
      obtain ⟨h1, h2⟩ := ih (c + 1) _ res1 st' h
      refine ⟨h1, ?_⟩
      rw [h2]
      simp only [List.length_append, List.length_singleton]
      omega

/-- C3 (amended): with an always-unresolved evaluator and an unreachable
oracle, `FinalHarmonizer.harmonize` terminates after exactly
`primary_cycles + conflict_cycles` (10) evaluate attempts and hands the
caller (through `Thinker.reflect`) a result with `status = "unresolved"`
and `verdict = "UNRESOLVED_RETURN_TO_RESONATOR"`; the returned dict
carries no `"cycles"` key (the code builds this one result without it),
so `cyclesUsed` is absent rather than equal to 10. -/
theorem final_harmonize_unresolved_sentinel (D : Type) (vault : Vault (Fused D))
    (draws : Nat → Combo) (oll : OllamaOracle) (leftV rightV : String) (distilled : D)
    (fuel : Nat) (out : ReflectionRecord) (st : HarmonizeState) (thc : Nat)
    (hres : ∀ v, vault.is_resolved v = false)
    (hhealth : ∀ c, oll.health c = false)
    (h : finalHarmonize D vault draws oll leftV rightV distilled fuel =
      some (out, st, thc)) :
    st.records.length = base_cycles + conflict_cycles ∧
    out.original.status = "unresolved" ∧
    out.original.verdict = "UNRESOLVED_RETURN_TO_RESONATOR" ∧
    out.original.cycles = none := by
  unfold finalHarmonize at h
  dsimp only at h
  cases h1 : runCycles (Fused D) vault draws ⟨leftV, rightV, distilled⟩ "Final_Core" fuel 0
      base_cycles ⟨0, [], []⟩ with
  | none => rw [h1] at h; exact absurd h (by simp)
  | some out1 =>
    obtain ⟨res1, st1⟩ := out1
    rw [h1] at h
    cases res1 with
    | some r1 =>
      exact absurd h1 (fun hh => runCycles_no_resolution (Fused D) vault draws
        ⟨leftV, rightV, distilled⟩ "Final_Core" fuel base_cycles 0 ⟨0, [], []⟩ r1 st1
        hres rfl hh)
    | none =>
      dsimp only at h
      obtain ⟨tl1, hrecs1, hlen1, _⟩ := runCycles_none_char (Fused D) vault draws
        ⟨leftV, rightV, distilled⟩ "Final_Core" fuel base_cycles 0 ⟨0, [], []⟩ st1 h1
      simp only at hrecs1
      rw [List.nil_append] at hrecs1
      cases h2 : finalConflict D vault draws oll ⟨leftV, rightV, distilled⟩ fuel 1
          conflict_cycles st1 with
      | none => rw [h2] at h; exact absurd h (by simp)
      | some out2 =>
        obtain ⟨res2, st2⟩ := out2
        rw [h2] at h
        obtain ⟨hres2, hlen2⟩ := finalConflict_down_char D vault draws oll
          ⟨leftV, rightV, distilled⟩ fuel hres hhealth conflict_cycles 1 st1 res2 st2 h2
        subst hres2
        simp only [Option.some.injEq, Prod.mk.injEq] at h
        obtain ⟨rfl, rfl, rfl⟩ := h
        refine ⟨?_, rfl, rfl, rfl⟩
        rw [hlen2, hrecs1, hlen1]

/-- Witness for C3 (amended): the concrete always-unresolved vault and
down oracle drive the full ten-attempt run. -/
theorem final_harmonize_unresolved_sentinel_witness :
    (tenCycleState).records.length = base_cycles + conflict_cycles ∧
    (⟨⟨"Final_Core", "UNRESOLVED_RETURN_TO_RESONATOR", none, "unresolved", none⟩,
        "Meta-analysis applied", 95 / 100, 1⟩ : ReflectionRecord).original.status =
      "unresolved" ∧
    (⟨⟨"Final_Core", "UNRESOLVED_RETURN_TO_RESONATOR", none, "unresolved", none⟩,
        "Meta-analysis applied", 95 / 100, 1⟩ : ReflectionRecord).original.verdict =
      "UNRESOLVED_RETURN_TO_RESONATOR" ∧
    (⟨⟨"Final_Core", "UNRESOLVED_RETURN_TO_RESONATOR", none, "unresolved", none⟩,
        "Meta-analysis applied", 95 / 100, 1⟩ : ReflectionRecord).original.cycles = none :=
  final_harmonize_unresolved_sentinel String vaultNever drawsSeq ollDown "L" "R" "d" 1
    ⟨⟨"Final_Core", "UNRESOLVED_RETURN_TO_RESONATOR", none, "unresolved", none⟩,
      "Meta-analysis applied", 95 / 100, 1⟩ tenCycleState 1
    (fun _ => rfl) (fun _ => rfl) (by rfl)

/-- C3 (counterexample to the claim as stated): on the concrete
always-unresolved evaluator with the unreachable oracle, the result's
`cycles` field is absent (`none`), not `primary_cycles + conflict_cycles`
— the claim's `cyclesUsed = 10` fails on the code. -/
theorem final_harmonize_unresolved_no_cycles_key :
    ((finalHarmonize String vaultNever drawsSeq ollDown "L" "R" "d" 1).map
      (fun out => out.1.original.cycles)) = some none ∧
    ((finalHarmonize String vaultNever drawsSeq ollDown "L" "R" "d" 1).map
      (fun out => out.1.original.cycles)) ≠
        some (some (base_cycles + conflict_cycles)) := by
  refine ⟨by decide, by decide⟩

/-- With an always-unresolved local evaluator and a healthy oracle whose
queries fail strictly before conflict cycle `c0` and succeed at `c0`,
the conflict loop short-circuits at conflict cycle `c0` with the
`"resolved_ollama"` dict carrying the oracle's synthesized verdict,
`cycles = primary_cycles + c0` and the oracle model, having appended one
evaluate-call record per conflict cycle up to and including `c0`. -/
theorem finalConflict_escalates (D : Type) (vault : Vault (Fused D))
    (draws : Nat → Combo) (oll : OllamaOracle) (fused : Fused D) (fuel : Nat)
    (c0 : Nat) (qr : OllamaResult)
    (hres : ∀ v, vault.is_resolved v = false)
    (hhealth : ∀ j, oll.health j = true)
    (hfail : ∀ j, j < c0 → queryFailed (oll.query j))
    (hq : oll.query c0 = some qr) (hqs : qr.success = true) :
    ∀ count c st res1 st',
      c ≤ c0 → c0 < c + count →
      finalConflict D vault draws oll fused fuel c count st = some (res1, st') →
      res1 = some ⟨"Final_Core_Ollama", qr.response, some (base_cycles + c0),
        "resolved_ollama", some qr.model⟩ ∧
      st'.records.length = st.records.length + (c0 + 1 - c) := by
  intro count
  induction count with
  | zero =>
    intro c st res1 st' hc hcc h
    omega
  | succ n ih =>
    intro c st res1 st' hc hcc h
    cases hp : pickUniqueSeedset draws fuel st.drawIdx st.prev with
    | none =>
      rw [finalConflict, hp] at h
      exact absurd h (by simp)
    | some picked =>
      obtain ⟨combo, i', prev'⟩ := picked
      rw [finalConflict, hp] at h
      dsimp only at h
      rw [hres (vault.evaluate fused combo.philosopher combo.logicSet), hhealth c] at h
      simp only [Bool.not_false, Bool.true_and, Bool.and_self, Bool.false_eq_true,
        if_false, if_true] at h
      by_cases hcase : c = c0
      · subst hcase
        rw [hq] at h
        dsimp only at h
        rw [if_pos hqs] at h
        simp only [Option.some.injEq, Prod.mk.injEq] at h
        obtain ⟨hr, hst⟩ := h
        subst hst
        refine ⟨hr.symm, ?_⟩
        simp only [List.length_append, List.length_singleton]
        omega
      · have hlt : c < c0 := lt_of_le_of_ne hc hcase
        have hf := hfail c hlt
        cases hquery : oll.query c with
        | none =>
          rw [hquery] at h
          dsimp only at h
          obtain ⟨h1, h2⟩ := ih (c + 1) _ res1 st' (by omega) (by omega) h
          refine ⟨h1, ?_⟩
          rw [h2]
          simp only [List.length_append, List.length_singleton]
          omega
        | some q =>
          rw [hquery] at h
          rw [hquery] at hf
          have hf' : q.success = false := hf
          dsimp only at h
          rw [if_neg (by rw [hf']; exact Bool.false_ne_true)] at h
          obtain ⟨h1, h2⟩ := ih (c + 1) _ res1 st' (by omega) (by omega) h
          refine ⟨h1, ?_⟩
          rw [h2]
          simp only [List.length_append, List.length_singleton]
          omega

/-- C4: with an always-unresolved local evaluator and a healthy oracle
whose first successful query happens on conflict cycle `c0` (1 ≤ c0 ≤ 5),
`FinalHarmonizer.harmonize` short-circuits on that cycle: the result
handed through `Thinker.reflect` is the escalated dict — the oracle's
synthesized verdict, `cycles = primary_cycles + c0`, the
`"resolved_ollama"` status (the code's literal for the spec's
`resolved_escalated`), and the oracle model — after exactly
`primary_cycles + c0` evaluate attempts. -/
theorem final_harmonize_escalates (D : Type) (vault : Vault (Fused D))
    (draws : Nat → Combo) (oll : OllamaOracle) (leftV rightV : String) (distilled : D)
    (fuel : Nat) (c0 : Nat) (qr : OllamaResult) (out : ReflectionRecord)
    (st : HarmonizeState) (thc : Nat)
    (hres : ∀ v, vault.is_resolved v = false)
    (hhealth : ∀ j, oll.health j = true)
    (hc1 : 1 ≤ c0) (hc5 : c0 ≤ conflict_cycles)
    (hfail : ∀ j, j < c0 → queryFailed (oll.query j))
    (hq : oll.query c0 = some qr) (hqs : qr.success = true)
    (h : finalHarmonize D vault draws oll leftV rightV distilled fuel =
      some (out, st, thc)) :
    out.original = ⟨"Final_Core_Ollama", qr.response, some (base_cycles + c0),
      "resolved_ollama", some qr.model⟩ ∧
    st.records.length = base_cycles + c0 := by
  unfold finalHarmonize at h
  dsimp only at h
  cases h1 : runCycles (Fused D) vault draws ⟨leftV, rightV, distilled⟩ "Final_Core" fuel 0
      base_cycles ⟨0, [], []⟩ with
  | none => rw [h1] at h; exact absurd h (by simp)
  | some out1 =>
    obtain ⟨res1, st1⟩ := out1
    rw [h1] at h
    cases res1 with
    | some r1 =>
      exact absurd h1 (fun hh => runCycles_no_resolution (Fused D) vault draws
        ⟨leftV, rightV, distilled⟩ "Final_Core" fuel base_cycles 0 ⟨0, [], []⟩ r1 st1
        hres rfl hh)
    | none =>
      dsimp only at h
      obtain ⟨tl1, hrecs1, hlen1, _⟩ := runCycles_none_char (Fused D) vault draws
        ⟨leftV, rightV, distilled⟩ "Final_Core" fuel base_cycles 0 ⟨0, [], []⟩ st1 h1
      simp only at hrecs1
      rw [List.nil_append] at hrecs1
      cases h2 : finalConflict D vault draws oll ⟨leftV, rightV, distilled⟩ fuel 1
          conflict_cycles st1 with
      | none => rw [h2] at h; exact absurd h (by simp)
      | some out2 =>
        obtain ⟨res2, st2⟩ := out2
        rw [h2] at h
        obtain ⟨hres2, hlen2⟩ := finalConflict_escalates D vault draws oll
          ⟨leftV, rightV, distilled⟩ fuel c0 qr hres hhealth hfail hq hqs
          conflict_cycles 1 st1 res2 st2 hc1
          (by unfold conflict_cycles at hc5 ⊢; omega) h2
        subst hres2
        dsimp only at h
        simp only [Option.some.injEq, Prod.mk.injEq] at h
        obtain ⟨rfl, rfl, rfl⟩ := h
        refine ⟨rfl, ?_⟩
        rw [hlen2, hrecs1, hlen1]
        omega

/-- Witness for C4: `ollUp2` is healthy, fails its query on conflict
cycle 1 and succeeds on conflict cycle 2, so the run escalates with
`cycles = primary_cycles + 2 = 7` after seven evaluate attempts. -/
theorem final_harmonize_escalates_witness :
    (⟨⟨"Final_Core_Ollama", "bridge", some 7, "resolved_ollama", some "phi3"⟩,
        "Meta-analysis applied", 95 / 100, 1⟩ : ReflectionRecord).original =
      ⟨"Final_Core_Ollama", "bridge", some (base_cycles + 2),
        "resolved_ollama", some "phi3"⟩ ∧
    (sevenCycleState).records.length = base_cycles + 2 :=
  final_harmonize_escalates String vaultNever drawsSeq ollUp2 "L" "R" "d" 1 2
    ⟨true, "bridge", "phi3"⟩
    ⟨⟨"Final_Core_Ollama", "bridge", some 7, "resolved_ollama", some "phi3"⟩,
      "Meta-analysis applied", 95 / 100, 1⟩ sevenCycleState 1
    (fun _ => rfl) (fun _ => rfl) (by decide) (by decide)
    (by
      intro j hj
      have hne : j ≠ 2 := by omega
      simp only [ollUp2, if_neg hne]
      exact rfl)
    rfl rfl (by rfl)

end DualCore
